import Mathlib

/-!
Shallow embedding of the cppcheck preprocessor core (src/preprocessor.cpp)
and verification of its specification claims.

All program text is modelled as `List Char` (8-bit bytes).  Every loop of
the C++ source is embedded either by structural recursion on the character
list or with an explicit fuel parameter that dominates the loop's iteration
count, so that all definitions evaluate by kernel reduction.
-/

namespace Cppcheck

/-- ASCII space-class test matching C `isspace` in the C locale. -/
def isSpaceC (c : Char) : Bool :=
  c.toNat = 32 || c.toNat = 9 || c.toNat = 10 || c.toNat = 11 || c.toNat = 12 || c.toNat = 13

/-- ASCII control-class test matching C `iscntrl` in the C locale. -/
def isCntrlC (c : Char) : Bool :=
  c.toNat < 32 || c.toNat = 127

/-- ASCII alphanumeric test matching C `isalnum` in the C locale. -/
def isAlnumC (c : Char) : Bool :=
  (48 ≤ c.toNat && c.toNat ≤ 57) || (65 ≤ c.toNat && c.toNat ≤ 90) ||
    (97 ≤ c.toNat && c.toNat ≤ 122)

/-- The byte produced by `(char)istr.get()` at end of stream: `(char)EOF = '\xFF'`. -/
def eofChar : Char := Char.ofNat 255

/-- `startsL pat s` holds when `pat` is a prefix of `s` (the `line.find(pat) == 0` idiom). -/
def startsL : List Char → List Char → Bool
  | [], _ => true
  | _ :: _, [] => false
  | a :: as, b :: bs => if a = b then startsL as bs else false

/-- `std::string::find(pat, i)`: the first index `j ≥ i` where `pat` occurs in `s`. -/
def findSubFrom (s pat : List Char) (i : Nat) : Option Nat :=
  ((List.range (s.length + 1)).filter
    (fun j => decide (i ≤ j) && startsL pat (s.drop j))).head?

/-- `std::string::rfind(pat)`: the last index where `pat` occurs in `s`. -/
def rfindSub (s pat : List Char) : Option Nat :=
  ((List.range (s.length + 1)).filter (fun j => startsL pat (s.drop j))).getLast?

/-- `std::string::find(c, i)` for a single character. -/
def findCharFrom (s : List Char) (c : Char) (i : Nat) : Option Nat :=
  ((List.range s.length).filter
    (fun j => decide (i ≤ j) && (s.get? j == some c))).head?

/-- Whether `pat` occurs anywhere in `s` (used to state literal-fidelity claims). -/
def containsSub (s pat : List Char) : Bool :=
  (List.range (s.length + 1)).any (fun j => startsL pat (s.drop j))

/-- Number of newline characters in a text. -/
def countNL (s : List Char) : Nat := s.count '\n'

/-- `std::string::erase(i, n)`. -/
def eraseAt (s : List Char) (i n : Nat) : List Char := s.take i ++ s.drop (i + n)

/-- `std::string::insert(i, t)`. -/
def insertAt (s : List Char) (i : Nat) (t : List Char) : List Char :=
  s.take i ++ t ++ s.drop i

/-- `Preprocessor::read`, `//` comment: consume up to and including the newline. -/
def lineComment : List Char → List Char
  | [] => []
  | c :: rest => if c = '\n' then rest else lineComment rest

/-- `Preprocessor::read`, `/*` comment scan.  `prev`/`cur` are `chPrev`/`ch`;
returns the emitted newlines and the remaining input. -/
def skipBlock : Char → Char → List Char → List Char × List Char
  | prev, cur, inp =>
    if prev = '*' ∧ cur = '/' then ([], inp)
    else
      match inp with
      | [] => ([], [])
      | c :: rest =>
        let pr := skipBlock cur c rest
        (if c = '\n' then '\n' :: pr.1 else pr.1, pr.2)

/-- `Preprocessor::read`, string-literal copy loop.  At end of stream the failed
`istr.get()` still appends `(char)EOF`.  `esc` records that the previous
character was a backslash whose escaped character is consumed blindly (and the
loop-termination check is skipped, per the `ch = 0` trick).  Returns emitted
text and remaining input. -/
def stringLoopF : Bool → List Char → List Char × List Char
  | _, [] => ([eofChar], [])
  | true, d :: rest =>
    let pr := stringLoopF false rest
    (d :: pr.1, pr.2)
  | false, c :: rest =>
    if c = '\\' then
      let pr := stringLoopF true rest
      (c :: pr.1, pr.2)
    else if c = '"' then (['"'], rest)
    else
      let pr := stringLoopF false rest
      (c :: pr.1, pr.2)

/-- String-literal copy loop entered right after the opening quote. -/
def stringLoop (s : List Char) : List Char × List Char := stringLoopF false s

/-- `Preprocessor::read`, char-constant branch: one char (plus optional escape),
then one consumed-and-discarded char, then an unconditional closing quote. -/
def charLoop : List Char → List Char × List Char
  | [] => ([eofChar, '\''], [])
  | c :: rest =>
    if c = '\\' then
      match rest with
      | [] => (['\\', eofChar, '\''], [])
      | d :: rest2 =>
        match rest2 with
        | [] => (['\\', d, '\''], [])
        | _ :: rest3 => (['\\', d, '\''], rest3)
    else
      match rest with
      | [] => ([c, '\''], [])
      | _ :: rest2 => ([c, '\''], rest2)

/-- Main loop of `Preprocessor::read`.  `ig` is the `ignoreSpace` flag.  The fuel
dominates the iteration count (each iteration consumes at least one input char). -/
def readLoop : Nat → Bool → List Char → List Char
  | 0, _, _ => []
  | _ + 1, _, [] => []
  | fuel + 1, ig, c :: rest =>
    if 128 ≤ c.toNat then readLoop fuel ig rest
    else
      let c2 := if c ≠ '\n' ∧ (isSpaceC c || isCntrlC c) = true then ' ' else c
      if c2 = ' ' ∧ ig = true then readLoop fuel ig rest
      else
        let ig2 := (c2 == ' ') || (c2 == '#') || (c2 == '/')
        if c2 = '/' then
          match rest with
          | [] => ['/', eofChar]
          | d :: rest2 =>
            if d = '/' then '\n' :: readLoop fuel ig2 (lineComment rest2)
            else if d = '*' then
              let pr := skipBlock (Char.ofNat 0) '/' rest2
              pr.1 ++ readLoop fuel ig2 pr.2
            else '/' :: d :: readLoop fuel ig2 rest2
        else if c2 = '"' then
          let pr := stringLoop rest
          '"' :: (pr.1 ++ readLoop fuel false pr.2)
        else if c2 = '\'' then
          let pr := charLoop rest
          '\'' :: (pr.1 ++ readLoop fuel false pr.2)
        else c2 :: readLoop fuel ig2 rest

/-- `Preprocessor::read` on a whole input. -/
def readL (s : List Char) : List Char := readLoop (s.length + 1) true s

/-- `std::replace(begin, end, '\t', ' ')`. -/
def tabSp (s : List Char) : List Char := s.map (fun c => if c = '\t' then ' ' else c)

/-- Leading-indentation strip: `erase(0, find_first_not_of(" "))` when the text
starts with a space. -/
def stripIndent (s : List Char) : List Char :=
  if s.head? = some ' ' then s.dropWhile (fun c => c = ' ') else s

/-- Loop body of `Preprocessor::removeSpaceNearNL`.  `i0` records `i = 0`;
`last` is the last character appended to `tmp`. -/
def rsnnAux : Bool → Option Char → List Char → List Char
  | _, _, [] => []
  | i0, last, c :: rest =>
    if c = ' ' ∧ ((i0 = false ∧ last = some '\n') ∨ rest.head? = some '\n') then
      rsnnAux false last rest
    else c :: rsnnAux false (some c) rest

/-- `Preprocessor::removeSpaceNearNL`. -/
def removeSpaceNearNLL (s : List Char) : List Char := rsnnAux true none s

/-- The two-character pattern `"\\\n"`. -/
def bsNL : List Char := ['\\', '\n']

/-- The `while ((loc = rfind("\\\n")) != npos)` line-continuation folding loop of
`Preprocessor::preprocess`.  Fuel dominates the number of folded pairs. -/
def foldLoop : Nat → List Char → List Char
  | 0, s => s
  | fuel + 1, s =>
    match rfindSub s bsNL with
    | none => s
    | some loc =>
      let s1 := eraseAt s loc 2
      let s2 := if 0 < loc ∧ ¬ s1.getD (loc - 1) ' ' = ' ' then insertAt s1 loc [' '] else s1
      let s3 :=
        match findCharFrom s2 '\n' loc with
        | none => s2
        | some l2 => insertAt s2 l2 ['\n']
      foldLoop fuel s3

/-- Line-continuation folding on a whole text. -/
def foldBsNLL (s : List Char) : List Char := foldLoop (s.length + 1) s

/-- The pattern `"#if defined("`. -/
def kwIfDefinedP : List Char := ['#', 'i', 'f', ' ', 'd', 'e', 'f', 'i', 'n', 'e', 'd', '(']

/-- The replacement text `"def "`. -/
def kwDefSp : List Char := ['d', 'e', 'f', ' ']

/-- Loop of `Preprocessor::replaceIfDefined`.  Fuel dominates the strictly
increasing search position. -/
def riLoop : Nat → List Char → Nat → List Char
  | 0, s, _ => s
  | fuel + 1, s, pos =>
    match findSubFrom s kwIfDefinedP pos with
    | none => s
    | some p =>
      match findCharFrom s ')' (p + 9) with
      | none => s
      | some p2 =>
        if s.get? (p2 + 1) = some '\n' then
          let s1 := eraseAt s p2 1
          let s2 := eraseAt s1 (p + 3) 9
          let s3 := insertAt s2 (p + 3) kwDefSp
          riLoop fuel s3 (p + 1)
        else riLoop fuel s (p + 1)

/-- `Preprocessor::replaceIfDefined`. -/
def replaceIfDefinedL (s : List Char) : List Char := riLoop (s.length + 1) s 0

/-- The cleaning pipeline of `Preprocessor::preprocess` up to (and excluding)
macro expansion: read, tab replacement, indentation strip, space-near-newline
removal, line-continuation folding, `#if defined(X)` rewriting. -/
def cleanL (s : List Char) : List Char :=
  replaceIfDefinedL (foldBsNLL (removeSpaceNearNLL (stripIndent (tabSp (readL s)))))

/-- `std::getline` accumulator: `acc` is the reversed current line. -/
def glGo : List Char → List Char → List (List Char)
  | acc, [] => [acc.reverse]
  | acc, c :: rest =>
    if c = '\n' then acc.reverse :: (if rest = [] then [] else glGo [] rest)
    else glGo (c :: acc) rest

/-- The sequence of lines `while (getline(istr, line))` yields from a text. -/
def getlinesL : List Char → List (List Char)
  | [] => []
  | s => glGo [] s

/-- The directive keyword `"#ifdef "`. -/
def kwIfdefSp : List Char := ['#', 'i', 'f', 'd', 'e', 'f', ' ']

/-- The directive keyword `"#if "`. -/
def kwIfSp : List Char := ['#', 'i', 'f', ' ']

/-- The directive keyword `"#elif "`. -/
def kwElifSp : List Char := ['#', 'e', 'l', 'i', 'f', ' ']

/-- The directive keyword `"#ifndef "`. -/
def kwIfndefSp : List Char := ['#', 'i', 'f', 'n', 'd', 'e', 'f', ' ']

/-- The directive keyword `"#else"`. -/
def kwElse : List Char := ['#', 'e', 'l', 's', 'e']

/-- The directive keyword `"#endif"`. -/
def kwEndif : List Char := ['#', 'e', 'n', 'd', 'i', 'f']

/-- The directive keyword `"#if"`. -/
def kwIf : List Char := ['#', 'i', 'f']

/-- The directive keyword `"#elif"`. -/
def kwElif : List Char := ['#', 'e', 'l', 'i', 'f']

/-- The directive keyword `"#define"`. -/
def kwDefine : List Char := ['#', 'd', 'e', 'f', 'i', 'n', 'e']

/-- `Preprocessor::getdef`: extract the guarded identifier from a directive line.
`erase(0, find(" "))` keeps the first space; the loop then deletes all spaces. -/
def getdefL (line : List Char) (d : Bool) : List Char :=
  if d = true ∧ ¬ (startsL kwIfdefSp line = true ∨ startsL kwIfSp line = true ∨
      startsL kwElifSp line = true) then []
  else if d = false ∧ ¬ startsL kwIfndefSp line = true then []
  else (line.drop (line.findIdx (fun c => c = ' '))).filter (fun c => ¬ c = ' ')

/-- The `;`-splitting loop of `Preprocessor::match_cfg_def`.  Fuel dominates the
number of components. -/
def mcdLoop : Nat → List Char → List Char → Bool
  | 0, _, _ => false
  | fuel + 1, cfg, d =>
    if cfg = [] then false
    else if ';' ∈ cfg then
      if cfg.takeWhile (fun c => ¬ c = ';') = d then true
      else mcdLoop fuel ((cfg.dropWhile (fun c => ¬ c = ';')).drop 1) d
    else decide (cfg = d)

/-- `Preprocessor::match_cfg_def`. -/
def match_cfg_def (cfg d : List Char) : Bool :=
  if d = ['0'] then false
  else if d = ['1'] then true
  else if cfg = [] then false
  else mcdLoop (cfg.length + 1) cfg d

/-- Configuration-string building loop of `Preprocessor::getcfgs`: join the guard
stack with `;`, skipping `"1"` and stopping at `"0"`. -/
def joinCfgAux (acc : List Char) : List (List Char) → List Char
  | [] => acc
  | d :: rest =>
    if d = ['0'] then acc
    else if d = ['1'] then joinCfgAux acc rest
    else joinCfgAux (if acc = [] then d else acc ++ ';' :: d) rest

/-- One line of the `Preprocessor::getcfgs` loop.  The state is the guard stack
`deflist` paired with the result list `ret`. -/
def getcfgsStep (st : List (List Char) × List (List Char)) (line : List Char) :
    List (List Char) × List (List Char) :=
  let d := getdefL line true ++ getdefL line false
  let st1 :=
    if d ≠ [] then
      let dl1 := if st.1 ≠ [] ∧ startsL kwElifSp line = true then st.1.dropLast else st.1
      let dl2 := dl1 ++ [d]
      let c := joinCfgAux [] dl2
      (dl2, if c ∈ st.2 then st.2 else st.2 ++ [c])
    else st
  let st2 :=
    if startsL kwElse line = true ∧ st1.1 ≠ [] then
      (st1.1.dropLast ++ [if st1.1.getLast? = some ['1'] then ['0'] else ['1']], st1.2)
    else st1
  if startsL kwEndif line = true ∧ st2.1 ≠ [] then (st2.1.dropLast, st2.2) else st2

/-- `Preprocessor::getcfgs`. -/
def getcfgsL (fd : List Char) : List (List Char) :=
  ((getlinesL fd).foldl getcfgsStep ([], [[]])).2

/-- Selector state of `Preprocessor::getcode`: the `matching_ifdef` and
`matched_ifdef` stacks, the persistent `match` flag, and the emitted lines. -/
structure GC where
  matching : List Bool
  matched : List Bool
  mflag : Bool
  outL : List (List Char)
deriving Repr, DecidableEq

/-- Directive transition of `Preprocessor::getcode` on the two boolean stacks.
`std::list::back()` (read or written) on an empty list is out-of-bounds and is
modelled as `Except.error`. -/
def gcDirective (cfg : List Char) (mg md : List Bool) (line : List Char) :
    Except Unit (List Bool × List Bool) :=
  if startsL kwElifSp line = true then
    match md.getLast? with
    | none => .error ()
    | some mb =>
      if mb then
        if mg = [] then .error () else .ok (mg.dropLast ++ [false], md)
      else if match_cfg_def cfg (getdefL line true) then
        if mg = [] then .error ()
        else if md = [] then .error ()
        else .ok (mg.dropLast ++ [true], md.dropLast ++ [true])
      else .ok (mg, md)
  else if getdefL line true ≠ [] then
    .ok (mg ++ [match_cfg_def cfg (getdefL line true)],
         md ++ [match_cfg_def cfg (getdefL line true)])
  else if getdefL line false ≠ [] then
    .ok (mg ++ [!match_cfg_def cfg (getdefL line false)],
         md ++ [!match_cfg_def cfg (getdefL line false)])
  else if line = kwElse then
    if md = [] then .ok (mg, md)
    else
      match md.getLast? with
      | none => .error ()
      | some db => if mg = [] then .error () else .ok (mg.dropLast ++ [!db], md)
  else if line = kwEndif then .ok (mg.dropLast, md.dropLast)
  else .ok (mg, md)

/-- Line emission of `Preprocessor::getcode`: blank the line when the `match`
flag is false, and blank it regardless when it starts with `#if`, `#else`,
`#elif` or `#endif`. -/
def emitLine (mf : Bool) (line : List Char) : List Char :=
  let l2 := if mf = false then [] else line
  if startsL kwIf l2 = true ∨ startsL kwElse l2 = true ∨ startsL kwElif l2 = true ∨
      startsL kwEndif l2 = true then []
  else l2

/-- One line of the `Preprocessor::getcode` loop. -/
def getcodeLine (cfg : List Char) (st : GC) (line : List Char) : Except Unit GC :=
  match gcDirective cfg st.matching st.matched line with
  | .error e => .error e
  | .ok (mg, md) =>
    let mf := if line ≠ [] ∧ line.head? = some '#' then mg.all (fun b => b) else st.mflag
    .ok ⟨mg, md, mf, st.outL ++ [emitLine mf line]⟩

/-- Fold of `getcodeLine` over the lines of the cleaned text. -/
def gcFold (cfg : List Char) (st : GC) : List (List Char) → Except Unit GC
  | [] => .ok st
  | l :: rest =>
    match getcodeLine cfg st l with
    | .error e => .error e
    | .ok st2 => gcFold cfg st2 rest

/-- Reassemble emitted lines: `ret << line << "\n"` per line. -/
def joinNL : List (List Char) → List Char
  | [] => []
  | l :: rest => l ++ '\n' :: joinNL rest

/-- `Preprocessor::getcode`. -/
def getcodeE (fd cfg : List Char) : Except Unit (List Char) :=
  match gcFold cfg ⟨[], [], true, []⟩ (getlinesL fd) with
  | .error e => .error e
  | .ok st => .ok (joinNL st.outL)

/-- A token of the embedded tokenizer. -/
structure Tok where
  str : List Char
deriving Repr, DecidableEq

/-- Word-constituent characters: alphanumerics and underscore. -/
def isWordC (c : Char) : Bool := isAlnumC c || c == '_'

/-- Modelled from the spec: `Token::isName` (token.cpp is not under src/) — a
name token starts with a letter or underscore. -/
def isNameTok (t : Tok) : Bool :=
  match t.str.head? with
  | some c => (65 ≤ c.toNat && c.toNat ≤ 90) || (97 ≤ c.toNat && c.toNat ≤ 122) || c == '_'
  | none => false

/-- Modelled from the spec: the embedded tokenizer (`tokenize.cpp` is not under
src/) — identifiers and numbers are maximal alphanumeric/underscore runs,
whitespace separates, any other character is a single-character token.
`cur` is the reversed current word. -/
def tkAux : List Char → List Char → List Tok
  | cur, [] => if cur = [] then [] else [⟨cur.reverse⟩]
  | cur, c :: rest =>
    if isWordC c = true then tkAux (c :: cur) rest
    else
      (if cur = [] then [] else [Tok.mk cur.reverse]) ++
        (if isSpaceC c = true then tkAux [] rest else ⟨[c]⟩ :: tkAux [] rest)

/-- Tokenize a macro definition body. -/
def tokenizeL (s : List Char) : List Tok := tkAux [] s

/-- Modelled from the spec: `Token::Match(tokens, "%var% ( %var%")` — the first
token is a name, the second an opening parenthesis, the third a name. -/
def matchVParenV : List Tok → Bool
  | t1 :: t2 :: t3 :: _ => isNameTok t1 && (t2.str == ['(']) && isNameTok t3
  | _ => false

/-- Formal-parameter collection of `Preprocessor::expandMacros`: walk tokens
after `name (` up to the closing parenthesis, keeping name tokens. -/
def collectPs : List Tok → List (List Char)
  | [] => []
  | t :: rest =>
    if t.str = [')'] then []
    else if isNameTok t = true then t.str :: collectPs rest
    else collectPs rest

/-- Positional lookup matching the `for (i < macroparams.size())` substitution
loop: first formal equal to `s` selects the corresponding argument. -/
def lookupPar : List (List Char) → List (List Char) → List Char → Option (List Char)
  | m :: ms, a :: as, s => if m = s then some a else lookupPar ms as s
  | _, _, _ => none

/-- Body reassembly of `Preprocessor::expandMacros`: substitute formals, and —
modelled from the spec — insert one space at a `%type% %var%` adjacency,
i.e. between two consecutive name tokens. -/
def buildGo (mps args : List (List Char)) : List Tok → List Char
  | [] => []
  | t :: rest =>
    let s0 :=
      if isNameTok t = true then
        match lookupPar mps args t.str with
        | some a => a
        | none => t.str
      else t.str
    let sp :=
      if isNameTok t = true then
        match rest.head? with
        | some t2 => if isNameTok t2 = true then [' '] else []
        | none => []
      else []
    s0 ++ sp ++ buildGo mps args rest

/-- `macrocode` construction: for a function-like macro skip tokens through the
closing parenthesis of the formal list, then drop one more token and reassemble. -/
def buildMC (toks : List Tok) (mps args : List (List Char)) : List Char :=
  let toks2 := if mps ≠ [] then toks.dropWhile (fun t => ¬ t.str = [')']) else toks
  buildGo mps args (toks2.drop 1)

/-- Argument parsing of `Preprocessor::expandMacros`: `rest` is `code` from
position `p`, `lvl` is `parlevel`, `par` the current argument, `ps` the parsed
arguments.  Returns the arguments and the final position (`pos2`). -/
def paLoop : List Char → Int → List Char → List (List Char) → Nat →
    List (List Char) × Nat
  | [], _, _, ps, p => (ps, p)
  | c :: rest, lvl, par, ps, p =>
    let lvl2 : Int := if c = '(' then lvl + 1 else if c = ')' then lvl - 1 else lvl
    if c = '(' ∧ lvl2 = 1 then paLoop rest lvl2 par ps (p + 1)
    else if c = ')' ∧ lvl2 ≤ 0 then (ps ++ [par], p)
    else if lvl2 = 1 ∧ c = ',' then paLoop rest lvl2 [] (ps ++ [par]) (p + 1)
    else if 1 ≤ lvl2 then paLoop rest lvl2 (par ++ [c]) ps (p + 1)
    else paLoop rest lvl2 par ps (p + 1)

/-- The `while (macro.find("\\\n") != npos)` removal loop: repeatedly erase the
first `"\\\n"` pair, counting the folds.  Fuel dominates the pair count. -/
def stripBsNL : Nat → List Char → List Char × Nat
  | 0, m => (m, 0)
  | fuel + 1, m =>
    match findSubFrom m bsNL 0 with
    | none => (m, 0)
    | some i =>
      let pr := stripBsNL fuel (eraseAt m i 2)
      (pr.1, pr.2 + 1)

/-- The `endpos` scan of `Preprocessor::expandMacros`: first newline at index
`≥ i` whose predecessor is not a backslash. -/
def findNLunesc (s : List Char) (i : Nat) : Option Nat :=
  ((List.range s.length).filter
    (fun j => decide (i ≤ j) && (s.get? j == some '\n') &&
      !(s.getD (j - 1) ' ' == '\\'))).head?

/-- Call-site scanning loop of `Preprocessor::expandMacros` for one macro.
`mlen` is `macro.length()`, `p0` the current `pos1`.  Fuel dominates the
strictly shrinking distance from `pos1` to the end of `code`. -/
def emInner (mlen : Nat) (mname : List Char) (mps : List (List Char))
    (toks : List Tok) : Nat → List Char → Nat → List Char
  | 0, code, _ => code
  | fuel + 1, code, p0 =>
    match findSubFrom code mname (p0 + 1) with
    | none => code
    | some p =>
      if 0 < p ∧ (isAlnumC (code.getD (p - 1) ' ') = true ∨ code.getD (p - 1) ' ' = '_') then
        emInner mlen mname mps toks fuel code p
      else
        let p2 := p + mname.length
        if mlen ≤ p2 then emInner mlen mname mps toks fuel code p
        else if mps ≠ [] ∧ ¬ code.get? p2 = some '(' then emInner mlen mname mps toks fuel code p
        else
          let pa := if mps ≠ [] then paLoop (code.drop p2) 0 [] [] p2 else ([], p2)
          if ¬ pa.1.length = mps.length then emInner mlen mname mps toks fuel code p
          else
            let mc := buildMC toks mps pa.1
            let code2 := code.take p ++ mc ++ code.drop (pa.2 + 1)
            emInner mlen mname mps toks fuel code2 (p + mc.length)

/-- Outer `#define` loop of `Preprocessor::expandMacros`.  `dp0` is `defpos`. -/
def emOuter : Nat → List Char → Nat → List Char
  | 0, code, _ => code
  | fuel + 1, code, dp0 =>
    match findSubFrom code kwDefine dp0 with
    | none => code
    | some dp =>
      match findNLunesc code (dp + 6) with
      | none => code.take dp
      | some ep =>
        let mac := (code.take (ep + 1)).drop (dp + 8)
        let code1 := code.take dp ++ code.drop ep
        let pr := stripBsNL (mac.length + 1) mac
        let code2 := insertAt code1 dp (List.replicate pr.2 '\n')
        let dp2 := dp + pr.2
        let toks := tokenizeL pr.1
        let mname := match toks.head? with | some t => t.str | none => []
        let mps := if matchVParenV toks = true then collectPs (toks.drop 2) else []
        let code3 := emInner pr.1.length mname mps toks (code2.length + 1) code2 dp2
        emOuter fuel code3 dp2

/-- `Preprocessor::expandMacros`. -/
def expandMacrosL (code : List Char) : List Char := emOuter (code.length + 1) code 0

/-- The cleaned-and-expanded text `processedFile` of the split `preprocess`
entry point. -/
def preprocessDataL (s : List Char) : List Char := expandMacrosL (cleanL s)

/-- The configuration list of the split `preprocess` entry point. -/
def preprocessConfigsL (s : List Char) : List (List Char) := getcfgsL (preprocessDataL s)

/-- The map-producing `preprocess` entry point: one key per enumerated
configuration, each mapped to the selector's result on the expanded text. -/
def preprocessMapL (s : List Char) : List (List Char × Except Unit (List Char)) :=
  (preprocessConfigsL s).map (fun c => (c, getcodeE (preprocessDataL s) c))

/-- Characters the cleaner passes through unchanged: alphanumerics and newline. -/
def plainNLC (c : Char) : Bool := isAlnumC c || c == '\n'

/-- Whether a text contains a double quote not immediately preceded by a
backslash escape (the side condition of the literal-fidelity claim). -/
def hasUnescQ : List Char → Bool
  | [] => false
  | c :: rest =>
    if c = '\\' then
      match rest with
      | [] => false
      | _ :: r2 => hasUnescQ r2
    else if c = '"' then true
    else hasUnescQ rest

/-! ### Lemmas about the cleaner on plain characters -/

theorem isAlnumC_facts {c : Char} (ha : isAlnumC c = true) :
    c.toNat < 128 ∧ isSpaceC c = false ∧ isCntrlC c = false := by
  simp only [isAlnumC, Bool.or_eq_true, Bool.and_eq_true, decide_eq_true_eq] at ha
  refine ⟨?_, ?_, ?_⟩
  · rcases ha with (⟨h1, h2⟩ | ⟨h1, h2⟩) | ⟨h1, h2⟩ <;> omega
  · simp only [isSpaceC, Bool.or_eq_false_iff, decide_eq_false_iff_not]
    rcases ha with (⟨h1, h2⟩ | ⟨h1, h2⟩) | ⟨h1, h2⟩ <;> omega
  · simp only [isCntrlC, Bool.or_eq_false_iff, decide_eq_false_iff_not]
    rcases ha with (⟨h1, h2⟩ | ⟨h1, h2⟩) | ⟨h1, h2⟩ <;> omega

theorem plainNLC_cases {c : Char} (h : plainNLC c = true) :
    isAlnumC c = true ∨ c = '\n' := by
  simp only [plainNLC, Bool.or_eq_true, beq_iff_eq] at h
  exact h

theorem plain_ne {c x : Char} (h : plainNLC c = true) (hx : plainNLC x = false) : c ≠ x := by
  intro he
  subst he
  rw [h] at hx
  cases hx

theorem plain_c2 {c : Char} (h : plainNLC c = true) :
    (if c ≠ '\n' ∧ (isSpaceC c || isCntrlC c) = true then ' ' else c) = c := by
  rcases plainNLC_cases h with ha | hn
  · obtain ⟨_, h2, h3⟩ := isAlnumC_facts ha
    simp [h2, h3]
  · subst hn
    simp

theorem plain_toNat {c : Char} (h : plainNLC c = true) : ¬ 128 ≤ c.toNat := by
  rcases plainNLC_cases h with ha | hn
  · obtain ⟨h1, _, _⟩ := isAlnumC_facts ha
    omega
  · subst hn
    decide

theorem readLoop_step_plain (n : Nat) (ig : Bool) (c : Char) (l : List Char)
    (hc : plainNLC c = true) :
    readLoop (n + 1) ig (c :: l) =
      c :: readLoop n ((c == ' ') || (c == '#') || (c == '/')) l := by
  have h1 := plain_toNat hc
  have h2 := plain_c2 hc
  have h3 : c ≠ ' ' := plain_ne hc (by decide)
  have h4 : c ≠ '/' := plain_ne hc (by decide)
  have h5 : c ≠ '"' := plain_ne hc (by decide)
  have h6 : c ≠ '\'' := plain_ne hc (by decide)
  simp only [readLoop, h2]
  rw [if_neg h1, if_neg (by simp [h3]), if_neg h4, if_neg h5, if_neg h6]

theorem readLoop_plain_id : ∀ (fuel : Nat) (ig : Bool) (l : List Char),
    (∀ c ∈ l, plainNLC c = true) → l.length < fuel → readLoop fuel ig l = l := by
  intro fuel
  induction fuel with
  | zero => intro ig l _ hl; omega
  | succ n ih =>
    intro ig l h hl
    match l with
    | [] => rfl
    | c :: rest =>
      rw [readLoop_step_plain n ig c rest (h c (by simp))]
      rw [ih _ rest (fun d hd => h d (by simp [hd])) (by simpa using Nat.lt_of_succ_lt_succ hl)]

theorem stringLoop_app (S rest : List Char) (h : ∀ c ∈ S, plainNLC c = true) :
    stringLoop (S ++ '"' :: rest) = (S ++ ['"'], rest) := by
  unfold stringLoop
  induction S with
  | nil => simp [stringLoopF]
  | cons c S ih =>
    have h1 : c ≠ '\\' := plain_ne (h c (by simp)) (by decide)
    have h2 : c ≠ '"' := plain_ne (h c (by simp)) (by decide)
    simp only [List.cons_append, stringLoopF]
    rw [if_neg h1, if_neg h2]
    simp only [List.append_eq]
    rw [ih (fun d hd => h d (by simp [hd]))]

theorem readLoop_quoted : ∀ (fuel : Nat) (ig : Bool) (pre S suf : List Char),
    (∀ c ∈ pre, plainNLC c = true) → (∀ c ∈ S, plainNLC c = true) →
    (∀ c ∈ suf, plainNLC c = true) →
    (pre ++ '"' :: (S ++ '"' :: suf)).length < fuel →
    readLoop fuel ig (pre ++ '"' :: (S ++ '"' :: suf)) = pre ++ '"' :: (S ++ '"' :: suf) := by
  intro fuel
  induction fuel with
  | zero => intro ig pre S suf _ _ _ hl; omega
  | succ n ih =>
    intro ig pre S suf hpre hS hsuf hl
    match pre with
    | [] =>
      have hlen : suf.length < n := by simp at hl; omega
      simp only [List.nil_append, readLoop]
      have e2 : (if ('"' : Char) ≠ '\n' ∧ (isSpaceC '"' || isCntrlC '"') = true
          then ' ' else '"') = '"' := by decide
      rw [e2]
      rw [if_neg (show ¬ (128 ≤ ('"' : Char).toNat) by decide)]
      rw [if_neg (show ¬ (('"' : Char) = ' ' ∧ ig = true) by simp)]
      rw [if_neg (show ('"' : Char) ≠ '/' by decide)]
      rw [if_pos rfl]
      rw [stringLoop_app S suf hS]
      rw [readLoop_plain_id n false suf hsuf hlen]
      simp
    | c :: pre2 =>
      rw [List.cons_append, readLoop_step_plain n ig c _ (hpre c (by simp))]
      rw [ih _ pre2 S suf (fun d hd => hpre d (by simp [hd])) hS hsuf
        (by simp at hl ⊢; omega)]

theorem tabSp_id (l : List Char) (h : '\t' ∉ l) : tabSp l = l := by
  induction l with
  | nil => rfl
  | cons c rest ih =>
    have hc : c ≠ '\t' := by intro he; exact h (by simp [he])
    simp [tabSp] at ih ⊢
    exact ⟨fun he => absurd he hc, ih (fun hm => h (by simp [hm]))⟩

theorem rsnn_id : ∀ (i0 : Bool) (last : Option Char) (l : List Char),
    ' ' ∉ l → rsnnAux i0 last l = l := by
  intro i0 last l
  induction l generalizing i0 last with
  | nil => intro _; rfl
  | cons c rest ih =>
    intro h
    have hc : c ≠ ' ' := by intro he; exact h (by simp [he])
    simp only [rsnnAux]
    rw [if_neg (by simp [hc])]
    rw [ih _ _ (fun hm => h (by simp [hm]))]

theorem stripIndent_nospace (l : List Char) (h : ¬ l.head? = some ' ') :
    stripIndent l = l := by
  simp [stripIndent, h]

theorem startsL_head {pat l : List Char} {c : Char} (hp : pat.head? = some c)
    (h : startsL pat l = true) : l.head? = some c := by
  match pat, l with
  | [], _ => simp at hp
  | a :: as, [] => simp [startsL] at h
  | a :: as, b :: bs =>
    simp only [List.head?_cons, Option.some.injEq] at hp ⊢
    simp only [startsL] at h
    by_cases hab : a = b
    · rw [← hab, hp]
    · rw [if_neg hab] at h; cases h

theorem findSubFrom_none (s pat : List Char) (c : Char) (i : Nat)
    (hp : pat.head? = some c) (h : c ∉ s) : findSubFrom s pat i = none := by
  unfold findSubFrom
  rw [List.filter_eq_nil_iff.mpr ?_]
  · rfl
  · intro j _
    simp only [Bool.and_eq_true, decide_eq_true_eq, not_and]
    intro _ hst
    have := startsL_head hp hst
    have hmem : c ∈ s.drop j := by
      match hd : s.drop j with
      | [] => rw [hd] at this; simp at this
      | x :: xs => rw [hd] at this; simp at this; simp [this]
    exact absurd (List.drop_subset j s hmem) h

theorem rfindSub_none (s pat : List Char) (c : Char)
    (hp : pat.head? = some c) (h : c ∉ s) : rfindSub s pat = none := by
  unfold rfindSub
  rw [List.filter_eq_nil_iff.mpr ?_]
  · rfl
  · intro j _
    simp only [Bool.not_eq_true]
    cases hst : startsL pat (s.drop j)
    · rfl
    · have := startsL_head hp hst
      have hmem : c ∈ s.drop j := by
        match hd : s.drop j with
        | [] => rw [hd] at this; simp at this
        | x :: xs => rw [hd] at this; simp at this; simp [this]
      exact absurd (List.drop_subset j s hmem) h

theorem foldBsNLL_id (l : List Char) (h : '\\' ∉ l) : foldBsNLL l = l := by
  unfold foldBsNLL
  simp only [foldLoop]
  rw [rfindSub_none l bsNL '\\' rfl h]

theorem replaceIfDefinedL_id (l : List Char) (h : '#' ∉ l) : replaceIfDefinedL l = l := by
  unfold replaceIfDefinedL
  simp only [riLoop]
  rw [findSubFrom_none l kwIfDefinedP '#' 0 rfl h]

theorem not_mem_of_all_plain {l : List Char} {x : Char}
    (h : ∀ c ∈ l, plainNLC c = true) (hx : plainNLC x = false) : x ∉ l := by
  intro hm
  rw [h x hm] at hx
  cases hx

theorem cleanL_plain_id (l : List Char) (h : ∀ c ∈ l, plainNLC c = true) : cleanL l = l := by
  unfold cleanL readL
  rw [readLoop_plain_id _ true l h (by omega)]
  rw [tabSp_id l (not_mem_of_all_plain h (by decide))]
  have hsp : ' ' ∉ l := not_mem_of_all_plain h (by decide)
  rw [stripIndent_nospace l ?hh]
  case hh =>
    intro hh
    match l with
    | [] => simp at hh
    | c :: r => simp at hh; exact hsp (by simp [hh])
  unfold removeSpaceNearNLL
  rw [rsnn_id _ _ l hsp]
  rw [foldBsNLL_id l (not_mem_of_all_plain h (by decide))]
  rw [replaceIfDefinedL_id l (not_mem_of_all_plain h (by decide))]

theorem startsL_append_self : ∀ (p t : List Char), startsL p (p ++ t) = true := by
  intro p
  induction p with
  | nil => intro t; rfl
  | cons a as ih => intro t; simp [startsL, ih]

theorem containsSub_of_append (pre pat suf : List Char) :
    containsSub (pre ++ pat ++ suf) pat = true := by
  unfold containsSub
  rw [List.any_eq_true]
  refine ⟨pre.length, List.mem_range.mpr ?_, ?_⟩
  · simp only [List.length_append]
    omega
  · rw [List.append_assoc, List.drop_left]
    exact startsL_append_self pat suf

theorem cleanL_quoted (pre S suf : List Char)
    (hpre : ∀ c ∈ pre, plainNLC c = true) (hS : ∀ c ∈ S, plainNLC c = true)
    (hsuf : ∀ c ∈ suf, plainNLC c = true) :
    cleanL (pre ++ '"' :: (S ++ '"' :: suf)) = pre ++ '"' :: (S ++ '"' :: suf) := by
  have hchar : ∀ c ∈ pre ++ '"' :: (S ++ '"' :: suf), plainNLC c = true ∨ c = '"' := by
    intro c hc
    simp only [List.mem_append, List.mem_cons] at hc
    rcases hc with hc | hc | hc | hc | hc
    · exact Or.inl (hpre c hc)
    · exact Or.inr hc
    · exact Or.inl (hS c hc)
    · exact Or.inr hc
    · exact Or.inl (hsuf c hc)
  have hnot : ∀ (x : Char), plainNLC x = false → x ≠ '"' →
      x ∉ pre ++ '"' :: (S ++ '"' :: suf) := by
    intro x hx hq hm
    rcases hchar x hm with h | h
    · rw [h] at hx; cases hx
    · exact hq h
  have hsp : ' ' ∉ pre ++ '"' :: (S ++ '"' :: suf) := hnot ' ' (by decide) (by decide)
  unfold cleanL readL
  rw [readLoop_quoted _ true pre S suf hpre hS hsuf (by omega)]
  rw [tabSp_id _ (hnot '\t' (by decide) (by decide))]
  rw [stripIndent_nospace _ ?hh]
  case hh =>
    intro hh
    match hm : pre ++ '"' :: (S ++ '"' :: suf) with
    | [] => rw [hm] at hh; simp at hh
    | c :: r =>
      rw [hm] at hh hsp
      simp only [List.head?_cons, Option.some.injEq] at hh
      exact hsp (by simp [hh])
  unfold removeSpaceNearNLL
  rw [rsnn_id _ _ _ hsp]
  rw [foldBsNLL_id _ (hnot '\\' (by decide) (by decide))]
  rw [replaceIfDefinedL_id _ (hnot '#' (by decide) (by decide))]

/-- Claim C3, counterexample: the input `"a<TAB>b"` (empty prefix and suffix,
`S = a<TAB>b` containing no unescaped quote) does not survive cleaning
byte-identically: the global tab replacement rewrites the tab inside the
string literal, so `"a<TAB>b"` does not occur in the cleaned text. -/
theorem c3_counterexample :
    hasUnescQ ("a\tb".data) = false ∧
    containsSub (cleanL ("\"a\tb\"".data)) ("\"a\tb\"".data) = false :=
  ⟨rfl, rfl⟩

/-- Claim C3 (amended): for every input of the form `prefix "S" suffix` in which
prefix, S and suffix consist only of plain characters (alphanumerics and
newlines — in particular no tabs, spaces, quotes, backslashes, slashes or hash
signs), the substring `"S"` appears byte-identically in the output of the full
cleaning pipeline. -/
theorem c3_amended (pre S suf : List Char)
    (hpre : ∀ c ∈ pre, plainNLC c = true) (hS : ∀ c ∈ S, plainNLC c = true)
    (hsuf : ∀ c ∈ suf, plainNLC c = true) :
    containsSub (cleanL (pre ++ '"' :: (S ++ '"' :: suf))) ('"' :: (S ++ ['"'])) = true := by
  rw [cleanL_quoted pre S suf hpre hS hsuf]
  have hsh : pre ++ '"' :: (S ++ '"' :: suf) = pre ++ ('"' :: (S ++ ['"'])) ++ suf := by
    simp
  rw [hsh]
  exact containsSub_of_append pre _ suf

/-- Claim C3, witness: the amended claim at the concrete input `ab"cd"ef`. -/
theorem c3_witness :
    containsSub (cleanL ("ab".data ++ '"' :: ("cd".data ++ '"' :: "ef".data)))
      ('"' :: ("cd".data ++ ['"'])) = true :=
  c3_amended _ _ _ (by decide) (by decide) (by decide)

/-- Claim C7, counterexample: on the input `a\<NL><NL>` the first cleaning pass
folds the continuation and inserts a space before the reinserted newline,
producing `a <NL><NL>`; a second pass removes that space, so cleaning is not
idempotent. -/
theorem c7_counterexample :
    cleanL (cleanL ("a\\\n\n".data)) ≠ cleanL ("a\\\n\n".data) := by decide

/-- Claim C7 (amended): the cleaning pipeline is idempotent on inputs made of
plain characters (alphanumerics and newlines), on which it acts as the
identity; in general a first pass can produce text that a second pass changes
(line-continuation folding can insert a space adjacent to a newline). -/
theorem c7_amended (l : List Char) (h : ∀ c ∈ l, plainNLC c = true) :
    cleanL (cleanL l) = cleanL l := by
  rw [cleanL_plain_id l h, cleanL_plain_id l h]

/-- Claim C7, witness: idempotence at the concrete input `ab<NL>cd`. -/
theorem c7_witness : cleanL (cleanL ("ab\ncd".data)) = cleanL ("ab\ncd".data) :=
  c7_amended _ (by decide)

theorem emitLine_prop (mf : Bool) (line : List Char) :
    (emitLine mf line = [] ∨ emitLine mf line = line) ∧
      (startsL kwIf (emitLine mf line) || startsL kwElse (emitLine mf line) ||
        startsL kwElif (emitLine mf line) || startsL kwEndif (emitLine mf line)) = false := by
  by_cases hmf : mf = false
  · subst hmf
    have he : emitLine false line = [] := by
      unfold emitLine
      simp [kwIf, kwElse, kwElif, kwEndif, startsL]
    rw [he]
    exact ⟨Or.inl rfl, by decide⟩
  · have hl2 : (if mf = false then ([] : List Char) else line) = line := if_neg hmf
    by_cases hbl : startsL kwIf line = true ∨ startsL kwElse line = true ∨
        startsL kwElif line = true ∨ startsL kwEndif line = true
    · have he : emitLine mf line = [] := by
        unfold emitLine
        rw [hl2, if_pos hbl]
      rw [he]
      exact ⟨Or.inl rfl, by decide⟩
    · have he : emitLine mf line = line := by
        unfold emitLine
        rw [hl2, if_neg hbl]
      rw [he]
      push_neg at hbl
      obtain ⟨h1, h2, h3, h4⟩ := hbl
      simp only [Bool.not_eq_true] at h1 h2 h3 h4
      exact ⟨Or.inr rfl, by simp [h1, h2, h3, h4]⟩

theorem getcodeLine_out (cfg : List Char) (st : GC) (line : List Char) (st' : GC)
    (h : getcodeLine cfg st line = .ok st') :
    ∃ l3, st'.outL = st.outL ++ [l3] ∧ (l3 = [] ∨ l3 = line) ∧
      (startsL kwIf l3 || startsL kwElse l3 || startsL kwElif l3 ||
        startsL kwEndif l3) = false := by
  unfold getcodeLine at h
  cases hd : gcDirective cfg st.matching st.matched line with
  | error e => rw [hd] at h; cases h
  | ok p =>
    obtain ⟨mg, md⟩ := p
    rw [hd] at h
    injection h with h
    subst h
    exact ⟨_, rfl, (emitLine_prop _ line).1, (emitLine_prop _ line).2⟩

theorem gcFold_out (cfg : List Char) : ∀ (lines : List (List Char)) (st st' : GC),
    gcFold cfg st lines = .ok st' →
    ∃ new, st'.outL = st.outL ++ new ∧ new.length = lines.length ∧
      ∀ l ∈ new, (l = [] ∨ l ∈ lines) ∧
        (startsL kwIf l || startsL kwElse l || startsL kwElif l ||
          startsL kwEndif l) = false := by
  intro lines
  induction lines with
  | nil =>
    intro st st' h
    unfold gcFold at h
    injection h with h
    subst h
    exact ⟨[], by simp, rfl, by simp⟩
  | cons l rest ih =>
    intro st st' h
    unfold gcFold at h
    cases hgl : getcodeLine cfg st l with
    | error e => rw [hgl] at h; cases h
    | ok st2 =>
      rw [hgl] at h
      obtain ⟨new2, h1, h2, h3⟩ := ih st2 st' h
      obtain ⟨l3, e1, e2, e3⟩ := getcodeLine_out cfg st l st2 hgl
      refine ⟨l3 :: new2, ?_, by simp [h2], ?_⟩
      · rw [h1, e1]
        simp
      · intro x hx
        rcases List.mem_cons.mp hx with hx | hx
        · subst hx
          refine ⟨?_, e3⟩
          rcases e2 with e2 | e2
          · exact Or.inl e2
          · exact Or.inr (by simp [e2])
        · obtain ⟨p1, p2⟩ := h3 x hx
          refine ⟨?_, p2⟩
          rcases p1 with p1 | p1
          · exact Or.inl p1
          · exact Or.inr (by simp [p1])

theorem glGo_no_nl : ∀ (s acc : List Char), '\n' ∉ acc →
    ∀ l ∈ glGo acc s, '\n' ∉ l := by
  intro s
  induction s with
  | nil =>
    intro acc hacc l hl
    simp only [glGo, List.mem_singleton] at hl
    subst hl
    simp [hacc]
  | cons c rest ih =>
    intro acc hacc l hl
    by_cases hc : c = '\n'
    · subst hc
      simp only [glGo, if_pos rfl] at hl
      rcases List.mem_cons.mp hl with hl | hl
      · subst hl; simp [hacc]
      · by_cases hr : rest = []
        · rw [if_pos hr] at hl; simp at hl
        · rw [if_neg hr] at hl
          exact ih [] (by simp) l hl
    · simp only [glGo, if_neg hc] at hl
      refine ih (c :: acc) ?_ l hl
      simp only [List.mem_cons, not_or]
      exact ⟨fun he => hc he.symm, hacc⟩

theorem getlinesL_ne (s : List Char) (h : s ≠ []) : getlinesL s = glGo [] s := by
  match s with
  | [] => exact absurd rfl h
  | c :: r => rfl

theorem getlinesL_no_nl (s : List Char) : ∀ l ∈ getlinesL s, '\n' ∉ l := by
  match s with
  | [] => intro l hl; simp [getlinesL] at hl
  | c :: r =>
    rw [getlinesL_ne (c :: r) (by simp)]
    exact glGo_no_nl (c :: r) [] (by simp)

theorem glGo_len : ∀ (s acc : List Char), s.getLast? = some '\n' →
    (glGo acc s).length = countNL s := by
  intro s
  induction s with
  | nil => intro acc h; simp at h
  | cons c rest ih =>
    intro acc h
    cases rest with
    | nil =>
      simp only [List.getLast?_singleton, Option.some.injEq] at h
      subst h
      simp [glGo, countNL]
    | cons b l =>
      rw [List.getLast?_cons_cons] at h
      by_cases hc : c = '\n'
      · subst hc
        have hg : glGo acc ('\n' :: b :: l) = acc.reverse :: glGo [] (b :: l) := by
          simp [glGo]
        rw [hg]
        have hcount : countNL ('\n' :: b :: l) = countNL (b :: l) + 1 := by
          simp [countNL, List.count_cons]
        rw [hcount]
        simp only [List.length_cons, ih [] h]
      · have hg : glGo acc (c :: b :: l) = glGo (c :: acc) (b :: l) := by
          simp [glGo, hc]
        rw [hg, ih (c :: acc) h]
        have : ('\n' == c) = false := beq_eq_false_iff_ne.mpr (Ne.symm hc)
        simp [countNL, List.count_cons, this, hc]

theorem getlinesL_len (s : List Char) (h : s = [] ∨ s.getLast? = some '\n') :
    (getlinesL s).length = countNL s := by
  rcases h with h | h
  · subst h; rfl
  · match s with
    | [] => simp at h
    | c :: r =>
      rw [getlinesL_ne (c :: r) (by simp)]
      exact glGo_len (c :: r) [] h

theorem joinNL_countNL (ls : List (List Char)) (h : ∀ l ∈ ls, '\n' ∉ l) :
    countNL (joinNL ls) = ls.length := by
  induction ls with
  | nil => rfl
  | cons l rest ih =>
    have h0 : l.count '\n' = 0 := List.count_eq_zero.mpr (h l (by simp))
    have ihr : countNL (joinNL rest) = rest.length := ih (fun x hx => h x (by simp [hx]))
    have he : countNL (joinNL (l :: rest)) = l.count '\n' + (countNL (joinNL rest) + 1) := by
      simp [joinNL, countNL, List.count_append, List.count_cons]
    rw [he, h0, ihr]
    simp

theorem glGo_append : ∀ (l : List Char), '\n' ∉ l → ∀ (acc t : List Char),
    glGo acc (l ++ '\n' :: t) = (acc.reverse ++ l) :: (if t = [] then [] else glGo [] t) := by
  intro l
  induction l with
  | nil => intro _ acc t; simp [glGo]
  | cons c l ih =>
    intro hl acc t
    have hc : c ≠ '\n' := fun he => hl (by simp [he])
    simp only [List.cons_append, glGo, if_neg hc, List.append_eq]
    rw [ih (fun hm => hl (by simp [hm])) (c :: acc) t]
    simp

theorem getlinesL_joinNL (ls : List (List Char)) (h : ∀ l ∈ ls, '\n' ∉ l) :
    getlinesL (joinNL ls) = ls := by
  induction ls with
  | nil => rfl
  | cons l rest ih =>
    have hj : joinNL (l :: rest) = l ++ '\n' :: joinNL rest := rfl
    rw [hj, getlinesL_ne _ (by simp)]
    rw [glGo_append l (h l (by simp)) [] (joinNL rest)]
    cases rest with
    | nil => simp [joinNL]
    | cons r rest2 =>
      rw [if_neg (by simp [joinNL] : ¬ (joinNL (r :: rest2) = []))]
      rw [← getlinesL_ne _ (by simp [joinNL] : joinNL (r :: rest2) ≠ [])]
      rw [ih (fun x hx => h x (by simp [hx]))]
      simp

/-- Claim C4, counterexample: the input `//x` has no newline, but the cleaner's
line-comment handling emits one unconditionally, so the cleaned text has one
more newline than the input. -/
theorem c4_counterexample :
    countNL (cleanL ("//x".data)) = 1 ∧ countNL ("//x".data) = 0 :=
  ⟨rfl, rfl⟩

/-- Claim C4 (amended): (1) on inputs made of plain characters (alphanumerics
and newlines) the cleaning pipeline preserves the number of newlines (it is the
identity there); (2) for every cleaned text that is empty or ends with a
newline and every configuration, the selector's output — when it does not abort
on an out-of-bounds stack access — has exactly as many newlines as that text. -/
theorem c4_amended :
    (∀ l : List Char, (∀ c ∈ l, plainNLC c = true) → countNL (cleanL l) = countNL l) ∧
    (∀ fd cfg out : List Char, fd = [] ∨ fd.getLast? = some '\n' →
      getcodeE fd cfg = .ok out → countNL out = countNL fd) := by
  constructor
  · intro l h
    rw [cleanL_plain_id l h]
  · intro fd cfg out hend h
    unfold getcodeE at h
    cases hf : gcFold cfg ⟨[], [], true, []⟩ (getlinesL fd) with
    | error e => rw [hf] at h; cases h
    | ok st =>
      rw [hf] at h
      injection h with h
      subst h
      obtain ⟨new, h1, h2, h3⟩ := gcFold_out cfg (getlinesL fd) _ st hf
      have hnl : ∀ l ∈ new, '\n' ∉ l := by
        intro l hl
        rcases (h3 l hl).1 with he | he
        · subst he; simp
        · exact getlinesL_no_nl fd l he
      have hst : st.outL = new := by simpa using h1
      rw [hst, joinNL_countNL new hnl, h2, getlinesL_len fd hend]

/-- Claim C4, witness: both parts of the amended claim at concrete inputs
(`ab<NL>cd<NL>` for cleaning, `x<NL>` with the empty configuration for the
selector). -/
theorem c4_witness :
    countNL (cleanL ("ab\ncd\n".data)) = countNL ("ab\ncd\n".data) ∧
    countNL ("x\n".data) = countNL ("x\n".data) :=
  ⟨c4_amended.1 _ (by decide), c4_amended.2 ("x\n".data) [] ("x\n".data) (Or.inr rfl) rfl⟩

/-- Claim C5, counterexample: on the cleaned text `#include x` with the empty
configuration, `getcode` emits the directive line unchanged — a non-empty
output line whose first character is `#` — because only `#if`/`#else`/`#elif`/
`#endif` prefixes are blanked. -/
theorem c5_counterexample :
    getcodeE ("#include x\n".data) [] = .ok ("#include x\n".data) ∧
    ((getlinesL ("#include x\n".data)).all (fun l => !(l.head? == some '#'))) = false :=
  ⟨rfl, rfl⟩

/-- Claim C5 (amended): for every cleaned text and configuration, whenever the
selector returns normally, no line of its output starts with `#if`, `#else`,
`#elif` or `#endif` — conditional directive lines always become empty lines;
other directive lines (such as `#include`) can be emitted unchanged. -/
theorem c5_amended (fd cfg out : List Char) (h : getcodeE fd cfg = .ok out) :
    ((getlinesL out).all (fun l => !(startsL kwIf l || startsL kwElse l ||
      startsL kwElif l || startsL kwEndif l))) = true := by
  unfold getcodeE at h
  cases hf : gcFold cfg ⟨[], [], true, []⟩ (getlinesL fd) with
  | error e => rw [hf] at h; cases h
  | ok st =>
    rw [hf] at h
    injection h with h
    subst h
    obtain ⟨new, h1, _, h3⟩ := gcFold_out cfg (getlinesL fd) _ st hf
    have hnl : ∀ l ∈ new, '\n' ∉ l := by
      intro l hl
      rcases (h3 l hl).1 with he | he
      · subst he; simp
      · exact getlinesL_no_nl fd l he
    have hst : st.outL = new := by simpa using h1
    rw [hst, getlinesL_joinNL new hnl]
    rw [List.all_eq_true]
    intro l hl
    rw [(h3 l hl).2]
    rfl

/-- Claim C5, witness: the amended claim at the concrete cleaned text
`#ifdef A<NL>x<NL>#endif<NL>` with the empty configuration. -/
theorem c5_witness :
    ((getlinesL ("\n\n\n".data)).all (fun l => !(startsL kwIf l || startsL kwElse l ||
      startsL kwElif l || startsL kwEndif l))) = true :=
  c5_amended ("#ifdef A\nx\n#endif\n".data) [] ("\n\n\n".data) rfl

theorem getdefL_endif_pref (suf : List Char) (d : Bool) :
    getdefL (kwEndif ++ suf) d = [] := by
  have h1 : startsL kwIfdefSp (kwEndif ++ suf) = false := by
    simp [kwIfdefSp, kwEndif, startsL]
  have h2 : startsL kwIfSp (kwEndif ++ suf) = false := by
    simp [kwIfSp, kwEndif, startsL]
  have h3 : startsL kwElifSp (kwEndif ++ suf) = false := by
    simp [kwElifSp, kwEndif, startsL]
  have h4 : startsL kwIfndefSp (kwEndif ++ suf) = false := by
    simp [kwIfndefSp, kwEndif, startsL]
  cases d
  · unfold getdefL
    rw [if_neg (by simp), if_pos (by simp [h4])]
  · unfold getdefL
    rw [if_pos (by simp [h1, h2, h3])]

theorem getdefL_else_pref (suf : List Char) (d : Bool) :
    getdefL (kwElse ++ suf) d = [] := by
  have h1 : startsL kwIfdefSp (kwElse ++ suf) = false := by
    simp [kwIfdefSp, kwElse, startsL]
  have h2 : startsL kwIfSp (kwElse ++ suf) = false := by
    simp [kwIfSp, kwElse, startsL]
  have h3 : startsL kwElifSp (kwElse ++ suf) = false := by
    simp [kwElifSp, kwElse, startsL]
  have h4 : startsL kwIfndefSp (kwElse ++ suf) = false := by
    simp [kwIfndefSp, kwElse, startsL]
  cases d
  · unfold getdefL
    rw [if_neg (by simp), if_pos (by simp [h4])]
  · unfold getdefL
    rw [if_pos (by simp [h1, h2, h3])]

theorem gcDirective_endif_pref (cfg : List Char) (mg md : List Bool) (suf : List Char)
    (hs : suf ≠ []) : gcDirective cfg mg md (kwEndif ++ suf) = .ok (mg, md) := by
  unfold gcDirective
  rw [if_neg (by simp [show startsL kwElifSp (kwEndif ++ suf) = false from by
    simp [kwElifSp, kwEndif, startsL]])]
  rw [if_neg (by simp [getdefL_endif_pref suf true])]
  rw [if_neg (by simp [getdefL_endif_pref suf false])]
  rw [if_neg (show ¬ kwEndif ++ suf = kwElse from by simp [kwEndif, kwElse])]
  rw [if_neg (show ¬ kwEndif ++ suf = kwEndif from by simp [kwEndif, hs])]

theorem gcDirective_else_pref (cfg : List Char) (mg md : List Bool) (suf : List Char)
    (hs : suf ≠ []) : gcDirective cfg mg md (kwElse ++ suf) = .ok (mg, md) := by
  unfold gcDirective
  rw [if_neg (by simp [show startsL kwElifSp (kwElse ++ suf) = false from by
    simp [kwElifSp, kwElse, startsL]])]
  rw [if_neg (by simp [getdefL_else_pref suf true])]
  rw [if_neg (by simp [getdefL_else_pref suf false])]
  rw [if_neg (show ¬ kwElse ++ suf = kwElse from by simp [kwElse, hs])]
  rw [if_neg (show ¬ kwElse ++ suf = kwEndif from by simp [kwElse, kwEndif])]

theorem emitLine_blank_of_pref (mf : Bool) (line : List Char)
    (h : startsL kwIf line = true ∨ startsL kwElse line = true ∨
      startsL kwElif line = true ∨ startsL kwEndif line = true) :
    emitLine mf line = [] := by
  cases mf
  · unfold emitLine
    simp [kwIf, kwElse, kwElif, kwEndif, startsL]
  · unfold emitLine
    simp only [show (true = false) = False from by simp, if_false]
    rw [if_pos h]

theorem getcodeLine_endif_pref (cfg : List Char) (st : GC) (suf : List Char) (hs : suf ≠ []) :
    getcodeLine cfg st (kwEndif ++ suf) =
      .ok ⟨st.matching, st.matched, st.matching.all (fun b => b), st.outL ++ [[]]⟩ := by
  unfold getcodeLine
  rw [gcDirective_endif_pref cfg st.matching st.matched suf hs]
  have hmf : (kwEndif ++ suf ≠ [] ∧ (kwEndif ++ suf).head? = some '#') := by
    simp [kwEndif]
  have he : emitLine (st.matching.all (fun b => b)) (kwEndif ++ suf) = [] :=
    emitLine_blank_of_pref _ _ (Or.inr (Or.inr (Or.inr (startsL_append_self kwEndif suf))))
  simp only [if_pos hmf, he]

theorem getcodeLine_else_pref (cfg : List Char) (st : GC) (suf : List Char) (hs : suf ≠ []) :
    getcodeLine cfg st (kwElse ++ suf) =
      .ok ⟨st.matching, st.matched, st.matching.all (fun b => b), st.outL ++ [[]]⟩ := by
  unfold getcodeLine
  rw [gcDirective_else_pref cfg st.matching st.matched suf hs]
  have hmf : (kwElse ++ suf ≠ [] ∧ (kwElse ++ suf).head? = some '#') := by
    simp [kwElse]
  have he : emitLine (st.matching.all (fun b => b)) (kwElse ++ suf) = [] :=
    emitLine_blank_of_pref _ _ (Or.inr (Or.inl (startsL_append_self kwElse suf)))
  simp only [if_pos hmf, he]

theorem getcfgsStep_endif_pref (dl ret : List (List Char)) (suf : List Char)
    (hdl : dl ≠ []) : getcfgsStep (dl, ret) (kwEndif ++ suf) = (dl.dropLast, ret) := by
  unfold getcfgsStep
  have e3 : startsL kwElse (kwEndif ++ suf) = false := by
    simp [kwElse, kwEndif, startsL]
  have e4 : startsL kwEndif (kwEndif ++ suf) = true := startsL_append_self kwEndif suf
  simp [getdefL_endif_pref suf true, getdefL_endif_pref suf false, e3, e4, hdl]

theorem getcfgsStep_else_pref (dl ret : List (List Char)) (suf : List Char)
    (hdl : dl ≠ []) : getcfgsStep (dl, ret) (kwElse ++ suf) =
      (dl.dropLast ++ [if dl.getLast? = some ['1'] then ['0'] else ['1']], ret) := by
  unfold getcfgsStep
  have e3 : startsL kwElse (kwElse ++ suf) = true := startsL_append_self kwElse suf
  have e4 : startsL kwEndif (kwElse ++ suf) = false := by
    simp [kwElse, kwEndif, startsL]
  simp [getdefL_else_pref suf true, getdefL_else_pref suf false, e3, e4, hdl]

/-- Claim C10: in the selector, `#else` and `#endif` take effect only on lines
exactly equal to those strings — a line that merely starts with `#endif` (or
`#else`) and continues with further characters is blanked but leaves the
matching/matched stacks untouched — whereas the enumerator pops (for `#endif`)
or flips the top (for `#else`) on any line with that prefix, provided its
guard stack is non-empty. -/
theorem c10_exact_vs_pref :
    (∀ (suf cfg : List Char) (st : GC), suf ≠ [] →
      getcodeLine cfg st (kwEndif ++ suf) =
        .ok ⟨st.matching, st.matched, st.matching.all (fun b => b), st.outL ++ [[]]⟩) ∧
    (∀ (suf cfg : List Char) (st : GC), suf ≠ [] →
      getcodeLine cfg st (kwElse ++ suf) =
        .ok ⟨st.matching, st.matched, st.matching.all (fun b => b), st.outL ++ [[]]⟩) ∧
    (∀ (suf : List Char) (dl ret : List (List Char)), dl ≠ [] →
      getcfgsStep (dl, ret) (kwEndif ++ suf) = (dl.dropLast, ret)) ∧
    (∀ (suf : List Char) (dl ret : List (List Char)), dl ≠ [] →
      getcfgsStep (dl, ret) (kwElse ++ suf) =
        (dl.dropLast ++ [if dl.getLast? = some ['1'] then ['0'] else ['1']], ret)) :=
  ⟨fun suf cfg st hs => getcodeLine_endif_pref cfg st suf hs,
   fun suf cfg st hs => getcodeLine_else_pref cfg st suf hs,
   fun suf dl ret hdl => getcfgsStep_endif_pref dl ret suf hdl,
   fun suf dl ret hdl => getcfgsStep_else_pref dl ret suf hdl⟩

/-- Claim C10, witness: the selector blanks `#endif x` leaving its stacks
untouched, and the enumerator pops its guard stack on the same line. -/
theorem c10_witness :
    getcodeLine [] ⟨[true], [true], true, []⟩ (kwEndif ++ " x".data) =
      .ok ⟨[true], [true], true, [[]]⟩ ∧
    getcfgsStep ([['A']], [[]]) (kwEndif ++ " x".data) = ([], [[]]) := by
  constructor
  · have := c10_exact_vs_pref.1 (" x".data) [] ⟨[true], [true], true, []⟩ (by decide)
    simpa using this
  · have := c10_exact_vs_pref.2.2.1 (" x".data) [['A']] [[]] (by decide)
    simpa using this

/-- Claim C1, counterexample: processing a `#else` line in the enumerator with
the macro-name guard `A` on top of the stack replaces the top by `"1"`, not by
`"0"` as the claim states. -/
theorem c1_counterexample :
    (getcfgsStep ([['A']], [[]]) ("#else".data)).1 = [['1']] ∧
    (getcfgsStep ([['A']], [[]]) ("#else".data)).1 ≠ [['0']] :=
  ⟨rfl, by decide⟩

/-- Claim C1 (amended): when the configuration enumerator processes a `#else`
line with a non-empty guard stack, the top guard atom is replaced as follows:
a top of `"1"` becomes `"0"`, and any other top — a top of `"0"` as well as a
macro-name top — becomes `"1"`. -/
theorem c1_amended (dl : List (List Char)) (t : List Char) (ret : List (List Char)) :
    getcfgsStep (dl ++ [t], ret) kwElse =
      (dl ++ [if t = ['1'] then ['0'] else ['1']], ret) := by
  unfold getcfgsStep
  have e1 : getdefL kwElse true = [] := rfl
  have e2 : getdefL kwElse false = [] := rfl
  have e3 : startsL kwElse kwElse = true := rfl
  have e4 : startsL kwEndif kwElse = false := rfl
  simp [e1, e2, e3, e4, List.dropLast_concat, List.getLast?_concat]

/-- Claim C6, counterexample: selecting from the cleaned text `#elif A` with an
empty guard stack dereferences the back of the empty `matched_ifdef` stack —
an out-of-bounds access, modelled as an error — so the claim's safety
assertion fails (and, on the enumerator side, the stack does not stay
unchanged either: the guard is pushed). -/
theorem c6_counterexample : getcodeE ("#elif A\n".data) [] = .error () := rfl

/-- Claim C6 (amended): on a `#elif` directive with an empty guard stack, the
enumerator performs no pop but still pushes the parsed guard and records its
configuration, while the selector's `#elif` handling reads the back of its
empty matched stack — an out-of-bounds access. -/
theorem c6_amended :
    (∀ ret : List (List Char), getcfgsStep ([], ret) ("#elif A".data) =
      ([['A']], if ['A'] ∈ ret then ret else ret ++ [['A']])) ∧
    (∀ (cfg : List Char) (st : GC), st.matched = [] →
      getcodeLine cfg st ("#elif A".data) = .error ()) := by
  constructor
  · intro ret
    unfold getcfgsStep
    have e1 : getdefL ("#elif A".data) true = ['A'] := rfl
    have e2 : getdefL ("#elif A".data) false = [] := rfl
    have e3 : startsL kwElifSp ("#elif A".data) = true := rfl
    have e4 : startsL kwElse ("#elif A".data) = false := rfl
    have e5 : startsL kwEndif ("#elif A".data) = false := rfl
    simp [e1, e2, e3, e4, e5, joinCfgAux]
  · intro cfg st hmd
    unfold getcodeLine gcDirective
    rw [if_pos (show startsL kwElifSp ("#elif A".data) = true from rfl), hmd]
    rfl

/-- Claim C6, witness: the selector's out-of-bounds access at the concrete
empty-stack state. -/
theorem c6_witness : getcodeLine [] ⟨[], [], true, []⟩ ("#elif A".data) = .error () :=
  c6_amended.2 [] ⟨[], [], true, []⟩ rfl

theorem getcfgsStep_ret_mono (st : List (List Char) × List (List Char)) (line : List Char) :
    (getcfgsStep st line).2 = st.2 ∨ ∃ c, (getcfgsStep st line).2 = st.2 ++ [c] := by
  unfold getcfgsStep
  dsimp only
  split_ifs <;> simp

theorem getcfgs_foldl_head : ∀ (lines : List (List Char))
    (st : List (List Char) × List (List Char)), st.2.head? = some [] →
    ((lines.foldl getcfgsStep st).2).head? = some [] := by
  intro lines
  induction lines with
  | nil => intro st h; exact h
  | cons l rest ih =>
    intro st h
    rw [List.foldl_cons]
    apply ih
    rcases getcfgsStep_ret_mono st l with he | ⟨c, he⟩
    · rw [he]; exact h
    · rw [he]
      match hst : st.2 with
      | [] => rw [hst] at h; simp at h
      | x :: xs =>
        rw [hst] at h
        simpa using h

/-- Claim C8: the configuration enumerator always returns a list whose first
element is the empty configuration, and the map-producing preprocess entry
point always contains the key `""`. -/
theorem c8_empty_config :
    (∀ fd : List Char, (getcfgsL fd).head? = some []) ∧
    (∀ s : List Char, ([] : List Char) ∈ (preprocessMapL s).map Prod.fst) := by
  constructor
  · intro fd
    exact getcfgs_foldl_head (getlinesL fd) ([], [[]]) rfl
  · intro s
    have hh : (preprocessConfigsL s).head? = some [] :=
      getcfgs_foldl_head (getlinesL (preprocessDataL s)) ([], [[]]) rfl
    unfold preprocessMapL
    rw [List.map_map]
    have hmap : (Prod.fst ∘ fun c => (c, getcodeE (preprocessDataL s) c)) =
        (id : List Char → List Char) := rfl
    rw [hmap, List.map_id]
    match hc : preprocessConfigsL s with
    | [] => rw [hc] at hh; simp at hh
    | c :: cs =>
      rw [hc] at hh
      simp only [List.head?_cons, Option.some.injEq] at hh
      exact List.mem_cons.mpr (Or.inl hh.symm)

/-- Claim C2: on the cleaned text `#define N 42<NL>int a=N;` the macro expander
removes the definition (leaving its newline) but does NOT replace the later
occurrence of `N`: the occurrence check `pos2 >= macro.length()` compares a
position in `code` against the length of the macro definition text and skips
the call site, so the output is `<NL>int a=N;` instead of the specified
`<NL>int a=42;`. -/
theorem c2_no_expansion :
    expandMacrosL ("#define N 42\nint a=N;".data) = ("\nint a=N;".data) ∧
    expandMacrosL ("#define N 42\nint a=N;".data) ≠ ("\nint a=42;".data) :=
  ⟨rfl, by decide⟩

/-- Claim C9, counterexample: the invocation `F(F(1,2))` of the two-parameter
macro `F` parses one argument (mismatch, so it is skipped), yet the expander
subsequently rewrites the inner invocation `F(1,2)`, so the mismatched
occurrence does not appear textually unchanged in the output. -/
theorem c9_counterexample :
    expandMacrosL ("#define F(a,b) a+b\nF(F(1,2))".data) = ("\nF(1+2)".data) ∧
    containsSub ("\nF(1+2)".data) ("F(F(1,2))".data) = false ∧
    (paLoop (("\nF(F(1,2))".data).drop 2) 0 [] [] 2).1.length = 1 ∧
    (if matchVParenV (tokenizeL ("F(a,b) a+b\n".data)) = true
      then collectPs ((tokenizeL ("F(a,b) a+b\n".data)).drop 2) else []).length = 2 :=
  ⟨rfl, rfl, rfl, rfl⟩

/-- Claim C9 (amended): an occurrence whose parsed argument count differs from
the formal count is skipped without any modification of the code buffer — the
scan simply moves past it — so the invocation text survives unless a later
substitution (of the same or another macro) rewrites text inside its argument
list; in particular it appears unchanged in the output when nothing inside it
is expandable, as in `F(1,2,3)` for the two-parameter macro `F`. -/
theorem c9_amended :
    (∀ (mlen : Nat) (mname : List Char) (mps : List (List Char)) (toks : List Tok)
        (fuel : Nat) (code : List Char) (p0 p : Nat),
      findSubFrom code mname (p0 + 1) = some p →
      ¬ (0 < p ∧ (isAlnumC (code.getD (p - 1) ' ') = true ∨ code.getD (p - 1) ' ' = '_')) →
      p + mname.length < mlen →
      mps ≠ [] →
      code.get? (p + mname.length) = some '(' →
      ¬ (paLoop (code.drop (p + mname.length)) 0 [] [] (p + mname.length)).1.length =
          mps.length →
      emInner mlen mname mps toks (fuel + 1) code p0 =
        emInner mlen mname mps toks fuel code p) ∧
    (expandMacrosL ("#define F(a,b) a+b\nF(1,2,3)\n".data) = ("\nF(1,2,3)\n".data) ∧
      containsSub (expandMacrosL ("#define F(a,b) a+b\nF(1,2,3)\n".data))
        ("F(1,2,3)".data) = true) := by
  constructor
  · intro mlen mname mps toks fuel code p0 p h1 h2 h3 h4 h5 h6
    simp only [emInner, h1]
    rw [if_neg h2]
    rw [if_neg (show ¬ mlen ≤ p + mname.length from by omega)]
    rw [if_neg (show ¬ (mps ≠ [] ∧ ¬ code.get? (p + mname.length) = some '(') from by
      simp only [not_and, not_not]
      intro _
      exact h5)]
    rw [if_pos h4, if_pos h6]
  · exact ⟨rfl, rfl⟩

/-- Claim C9, witness: the skip step of the amended claim at the concrete
mismatched invocation `F(1,2,3)` of the two-parameter macro `F`. -/
theorem c9_witness :
    emInner 11 ("F".data) [("a".data), ("b".data)] (tokenizeL ("F(a,b) a+b\n".data)) 1
        ("\nF(1,2,3)\n".data) 0 =
      emInner 11 ("F".data) [("a".data), ("b".data)] (tokenizeL ("F(a,b) a+b\n".data)) 0
        ("\nF(1,2,3)\n".data) 1 :=
  c9_amended.1 11 ("F".data) [("a".data), ("b".data)] (tokenizeL ("F(a,b) a+b\n".data))
    0 ("\nF(1,2,3)\n".data) 0 1 rfl (by decide) (by decide) (by decide) rfl (by decide)

end Cppcheck
